import Mathlib

/-!
Verification of the LRU doubly-linked list in `store/lru/doubly_linked_list.go`
(package `lru` of GhostDB).

The Go heap is modelled as an arena `mem : Nat → Node` together with an
allocation counter `alloc`; a Go `*Node` pointer is an `Option Nat` (`none` is
the nil pointer, `some i` points at arena cell `i`).  The `interface{}` payload
of the `Value` field is opaque to the list, so it is modelled by `String` (the
Go code itself stores the string `""` there for the two sentinels).  The int32
field `Size`, updated with `atomic.AddInt32`, is modelled as an `Int` kept in
the int32 range by the explicit wraparound function `wrap32`.  `time.Now`
results are passed in as an explicit `now` argument.

The mutex discipline of each operation is recorded as a trace of events
(`lock`, `unlock`, `acc`), where `acc` stands for a block of reads/writes of
the shared list structure; the trace transcribes the order in which the Go
source takes and releases `ll.Mux` around its accesses.

Each operation is a pure function from the list state to an `OpResult`
containing the new state, the returned `*Node`, the returned `error` (Go's
`errors.New("List is empty")` becomes `some "List is empty"`), and the event
trace.  Dereferencing a nil pointer would panic in Go; in the model such a
dereference reads the placeholder node `nilNode` or skips the write.  No
reachable (well-formed) state performs such a dereference, as the invariant
proofs below show.
-/

namespace lru

/-- One linked node, mirroring Go `type Node struct`.  The mutex `Mux` carried
by each node is never used by any operation and has no observable content, so
it is not part of the model's state. -/
structure Node where
  Key : String
  Value : String
  TTL : Int
  CreatedAt : Int
  Prev : Option Nat
  Next : Option Nat
deriving DecidableEq, Repr

/-- Placeholder node read by a (never reachable in well-formed states)
nil-pointer dereference. -/
def nilNode : Node :=
  { Key := "", Value := "", TTL := 0, CreatedAt := 0, Prev := none, Next := none }

instance : Inhabited Node := ⟨nilNode⟩

/-- The list state, mirroring Go `type List struct` plus the heap arena that
holds the nodes.  `mem` is the heap, `alloc` the next fresh address.  `Size`
is the int32 size field (an `Int` kept in int32 range by `wrap32`). -/
structure LList where
  mem : Nat → Node
  alloc : Nat
  Head : Nat
  Tail : Nat
  Size : Int

/-- Heap update: write node `nd` at address `i`. -/
def hupd (h : Nat → Node) (i : Nat) (nd : Node) : Nat → Node :=
  fun j => if j = i then nd else h j

/-- Read through a possibly-nil pointer (nil reads the placeholder node). -/
def deref (h : Nat → Node) : Option Nat → Node
  | some i => h i
  | none => nilNode

/-- Write `Next := q` through a possibly-nil pointer (nil skips the write,
where Go would panic). -/
def setNextAt (h : Nat → Node) (p : Option Nat) (q : Option Nat) : Nat → Node :=
  match p with
  | some i => hupd h i { h i with Next := q }
  | none => h

/-- Write `Prev := q` through a possibly-nil pointer. -/
def setPrevAt (h : Nat → Node) (p : Option Nat) (q : Option Nat) : Nat → Node :=
  match p with
  | some i => hupd h i { h i with Prev := q }
  | none => h

/-- int32 wraparound: the value of an `Int` stored in a Go `int32`
(two's-complement, as produced by `atomic.AddInt32`). -/
def wrap32 (x : Int) : Int :=
  (x + 2 ^ 31) % 2 ^ 32 - 2 ^ 31

/-- Mutex events of one operation, in program order.  `acc` stands for a
block of accesses (reads/writes) to the shared list structure. -/
inductive Ev where
  | lock
  | unlock
  | acc
deriving DecidableEq, Repr

/-- Result of one operation: new list state, returned `*Node`, returned
`error`, and the mutex-event trace. -/
structure OpResult where
  list : LList
  node : Option Nat
  err : Option String
  trace : List Ev

/-- Go `InitList`: allocates the two sentinels (head at address 0, tail at
address 1), links `Head.Next = Tail` and `Tail.Prev = Head`, `Size = 0`. -/
def InitList (now : Int) : LList :=
  let headNode : Node :=
    { Key := "", Value := "", TTL := -1, CreatedAt := now, Prev := none, Next := none }
  let tailNode : Node :=
    { Key := "", Value := "", TTL := -1, CreatedAt := now, Prev := none, Next := none }
  let mem0 : Nat → Node := fun j => if j = 0 then headNode else if j = 1 then tailNode else nilNode
  -- list.Head.Next = list.Tail ; list.Tail.Prev = list.Head
  let mem1 := hupd mem0 0 { headNode with Next := some 1 }
  let mem2 := hupd mem1 1 { tailNode with Prev := some 0 }
  { mem := mem2, alloc := 2, Head := 0, Tail := 1, Size := 0 }

/-- Go `Insert`: under the list lock (taken on entry, released by `defer` on
return), splice a freshly allocated node between `Head` and `Head.Next`, then
`atomic.AddInt32(&ll.Size, 1)`.  Returns `(newNode, nil)`. -/
def Insert (ll : LList) (key : String) (value : String) (ttl : Int) (now : Int) : OpResult :=
  let n := ll.alloc
  let hNext := (ll.mem ll.Head).Next
  -- newNode with Prev = ll.Head, Next = ll.Head.Next
  let newNode : Node :=
    { Key := key, Value := value, TTL := ttl, CreatedAt := now,
      Prev := some ll.Head, Next := hNext }
  let mem1 := hupd ll.mem n newNode
  -- ll.Head.Next = newNode
  let mem2 := hupd mem1 ll.Head { mem1 ll.Head with Next := some n }
  -- newNode.Next.Prev = newNode
  let mem3 := setPrevAt mem2 hNext (some n)
  { list := { mem := mem3, alloc := n + 1, Head := ll.Head, Tail := ll.Tail,
              Size := wrap32 (ll.Size + 1) },
    node := some n, err := none,
    trace := [Ev.lock, Ev.acc, Ev.unlock] }

/-- Go `RemoveLast`: under the list lock, if `Size == 0` fail with the
empty-list error; otherwise unlink `Tail.Prev` (relinking its predecessor's
`Next` and `Tail.Prev`) and decrement `Size`. -/
def RemoveLast (ll : LList) : OpResult :=
  if ll.Size = 0 then
    { list := ll, node := none, err := some "List is empty",
      trace := [Ev.lock, Ev.acc, Ev.unlock] }
  else
    let nodeToRemove := (ll.mem ll.Tail).Prev
    let rPrev := (deref ll.mem nodeToRemove).Prev
    -- nodeToRemove.Prev.Next = ll.Tail
    let mem1 := setNextAt ll.mem rPrev (some ll.Tail)
    -- ll.Tail.Prev = nodeToRemove.Prev
    let mem2 := hupd mem1 ll.Tail { mem1 ll.Tail with Prev := rPrev }
    { list := { mem := mem2, alloc := ll.alloc, Head := ll.Head, Tail := ll.Tail,
                Size := wrap32 (ll.Size - 1) },
      node := nodeToRemove, err := none,
      trace := [Ev.lock, Ev.acc, Ev.unlock] }

/-- Go `RemoveNode`: takes the lock for the size check and releases it; on
`Size == 0` fail, on `Size == 1` delegate to `RemoveLast` (discarding its
error); otherwise reacquire the lock, relink the node's neighbours around it
and decrement `Size`.  The released-and-reacquired lock shows in the trace. -/
def RemoveNode (ll : LList) (node : Nat) : OpResult :=
  if ll.Size = 0 then
    { list := ll, node := none, err := some "List is empty",
      trace := [Ev.lock, Ev.acc, Ev.unlock] }
  else if ll.Size = 1 then
    let r := RemoveLast ll
    { list := r.list, node := r.node, err := none,
      trace := [Ev.lock, Ev.acc, Ev.unlock] ++ r.trace }
  else
    let prevNode := (ll.mem node).Prev
    let nextNode := (ll.mem node).Next
    -- prevNode.Next = node.Next ; nextNode.Prev = node.Prev
    let mem1 := setNextAt ll.mem prevNode nextNode
    let mem2 := setPrevAt mem1 nextNode prevNode
    { list := { mem := mem2, alloc := ll.alloc, Head := ll.Head, Tail := ll.Tail,
                Size := wrap32 (ll.Size - 1) },
      node := some node, err := none,
      trace := [Ev.lock, Ev.acc, Ev.unlock] ++ [Ev.lock, Ev.acc, Ev.unlock] }

/-- Go `GetLastNode`: takes the lock only for the size check, releases it, and
only then reads `ll.Tail.Prev` (the final `acc` in the trace happens after
`unlock`).  Never mutates the list. -/
def GetLastNode (ll : LList) : OpResult :=
  if ll.Size = 0 then
    { list := ll, node := none, err := some "List is empty",
      trace := [Ev.lock, Ev.acc, Ev.unlock] }
  else
    { list := ll, node := (ll.mem ll.Tail).Prev, err := none,
      trace := [Ev.lock, Ev.acc, Ev.unlock, Ev.acc] }

/-! ## The chain representation -/

/-- The `Next` pointer at address `i`. -/
def nextIdx (s : LList) (i : Nat) : Option Nat := (s.mem i).Next

/-- The `Prev` pointer at address `i`. -/
def prevIdx (s : LList) (i : Nat) : Option Nat := (s.mem i).Prev

/-- Forward link between consecutive chain members. -/
def nextLink (s : LList) (a b : Nat) : Prop := nextIdx s a = some b

/-- Backward link between consecutive chain members. -/
def prevLink (s : LList) (a b : Nat) : Prop := prevIdx s b = some a

instance (s : LList) : DecidableRel (nextLink s) :=
  fun a b => inferInstanceAs (Decidable (nextIdx s a = some b))

instance (s : LList) : DecidableRel (prevLink s) :=
  fun a b => inferInstanceAs (Decidable (prevIdx s b = some a))

/-- A `List.Chain` decision procedure that reduces in the kernel (the library
instance is built with tactics and gets stuck under `decide`). -/
instance (priority := 2000) instDecChainNat {R : Nat → Nat → Prop} [h : DecidableRel R] :
    ∀ (a : Nat) (l : List Nat), Decidable (List.Chain R a l)
  | _, [] => .isTrue List.Chain.nil
  | a, b :: l =>
    match h a b, instDecChainNat b l with
    | .isTrue h1, .isTrue h2 => .isTrue (List.Chain.cons h1 h2)
    | .isFalse h1, _ => .isFalse fun hc => by
        cases hc with
        | cons hh ht => exact h1 hh
    | _, .isFalse h2 => .isFalse fun hc => by
        cases hc with
        | cons hh ht => exact h2 ht

instance (priority := 2000) instDecChainNat' {R : Nat → Nat → Prop} [DecidableRel R] :
    ∀ (l : List Nat), Decidable (List.Chain' R l)
  | [] => .isTrue trivial
  | a :: l => inferInstanceAs (Decidable (List.Chain R a l))

/-- The full node chain of a list whose real elements are `xs` (in order from
most- to least-recently inserted): head sentinel, then `xs`, then the tail
sentinel. -/
def fullChain (s : LList) (xs : List Nat) : List Nat := s.Head :: xs ++ [s.Tail]

/-- Chain representation predicate: the addresses `xs` are the real elements
of `s`, i.e. the `Next` links run `Head :: xs ++ [Tail]` front to back, the
`Prev` links run the same sequence back to front, all addresses are distinct
and allocated. -/
def Rep (s : LList) (xs : List Nat) : Prop :=
  List.Chain' (nextLink s) (fullChain s xs) ∧
  List.Chain' (prevLink s) (fullChain s xs) ∧
  (fullChain s xs).Nodup ∧
  ∀ i ∈ fullChain s xs, i < s.alloc

instance (s : LList) (xs : List Nat) : Decidable (Rep s xs) :=
  inferInstanceAs (Decidable (_ ∧ _ ∧ _ ∧ _))

/-- The int32 `Size` field always holds the wraparound of the number of real
elements. -/
def SizeInv (s : LList) (xs : List Nat) : Prop :=
  s.Size = wrap32 (xs.length : Int)

/-- Machine-level invariant: chain shape plus wrapped size. -/
def Inv (s : LList) (xs : List Nat) : Prop := Rep s xs ∧ SizeInv s xs

/-- A well-formed list as described by the spec's data model: chain shape,
`Size` equal to the number of real elements, and `Size` representable in the
int32 field (its lower bound `-2^31 ≤ Size` follows from `Size = xs.length`). -/
def WF (s : LList) (xs : List Nat) : Prop :=
  Rep s xs ∧ s.Size = (xs.length : Int) ∧ s.Size < 2 ^ 31

instance (s : LList) (xs : List Nat) : Decidable (WF s xs) :=
  inferInstanceAs (Decidable (_ ∧ _ ∧ _))

/-- Walk a pointer graph: follow `step` from `i`, stopping at `stop` (or at a
nil pointer, or when the fuel runs out). -/
def walkF (step : Nat → Option Nat) (stop : Nat) : Nat → Nat → List Nat
  | 0, i => [i]
  | fuel + 1, i =>
    if i = stop then [i]
    else
      match step i with
      | none => [i]
      | some j => i :: walkF step stop fuel j

/-- The keys of the chain members `xs`, in chain order. -/
def chainKeysOf (s : LList) (xs : List Nat) : List String :=
  xs.map fun i => (s.mem i).Key

/-- Run a sequence of inserts (key, value, ttl, now) left to right. -/
def runInserts (s : LList) : List (String × String × Int × Int) → LList
  | [] => s
  | e :: rest => runInserts (Insert s e.1 e.2.1 e.2.2.1 e.2.2.2).list rest

/-- Predicate `interiorAcc t`: holds when `t` consists of `acc` events followed by a
single final `unlock`. -/
def interiorAcc : List Ev → Bool
  | [Ev.unlock] => true
  | Ev.acc :: t => interiorAcc t
  | _ => false

/-- A trace is well-locked when it is `lock`, then shared accesses only, then
a single final `unlock`: the lock is taken on entry, held across every shared
access, and released exactly once on return. -/
def wellLocked (t : List Ev) : Bool :=
  match t with
  | Ev.lock :: rest => interiorAcc rest
  | _ => false

/-! ## Basic lemmas about the heap and the size counter -/

@[simp]
theorem hupd_self (h : Nat → Node) (i : Nat) (nd : Node) : hupd h i nd i = nd := by
  simp [hupd]

theorem hupd_ne (h : Nat → Node) (i : Nat) (nd : Node) {j : Nat} (hj : j ≠ i) :
    hupd h i nd j = h j := by
  simp [hupd, hj]

theorem wrap32_add_left (x y : Int) : wrap32 (wrap32 x + y) = wrap32 (x + y) := by
  unfold wrap32
  omega

theorem wrap32_eq_self {x : Int} (h1 : -2 ^ 31 ≤ x) (h2 : x < 2 ^ 31) : wrap32 x = x := by
  unfold wrap32
  omega

theorem wrap32_zero : wrap32 0 = 0 := by
  unfold wrap32
  omega

theorem wrap32_two_pow_31 : wrap32 (2 ^ 31) = -2 ^ 31 := by
  unfold wrap32
  omega

/-! ## Chain lemmas -/

/-- A `Chain'` of forward links only reads the `Next` pointers of the non-last
elements, so it transfers between states that agree there. -/
theorem chainNext_congr {s s' : LList} (l : List Nat)
    (hagree : ∀ a ∈ l.dropLast, nextIdx s' a = nextIdx s a)
    (h : List.Chain' (nextLink s) l) : List.Chain' (nextLink s') l := by
  induction l with
  | nil => simp
  | cons a t ih =>
    cases t with
    | nil => simp
    | cons b t' =>
      rw [List.chain'_cons] at h ⊢
      refine ⟨?_, ih (fun x hx => hagree x (List.mem_cons_of_mem a hx)) h.2⟩
      show nextIdx s' a = some b
      rw [hagree a (List.mem_cons_self a _)]
      exact h.1

/-- A `Chain'` of backward links only reads the `Prev` pointers of the non-first
elements, so it transfers between states that agree there. -/
theorem chainPrev_congr {s s' : LList} (l : List Nat)
    (hagree : ∀ a ∈ l.tail, prevIdx s' a = prevIdx s a)
    (h : List.Chain' (prevLink s) l) : List.Chain' (prevLink s') l := by
  induction l with
  | nil => simp
  | cons a t ih =>
    cases t with
    | nil => simp
    | cons b t' =>
      rw [List.chain'_cons] at h ⊢
      refine ⟨?_, ih (fun x hx => hagree x (List.mem_cons_of_mem b hx)) h.2⟩
      show prevIdx s' b = some a
      rw [hagree b (List.mem_cons_self b _)]
      exact h.1

theorem not_mem_of_nodup_append_singleton {l : List Nat} {z : Nat}
    (h : (l ++ [z]).Nodup) : z ∉ l := by
  intro hz
  rw [List.nodup_append] at h
  exact h.2.2 hz (List.mem_singleton_self z)

theorem getLast_not_mem_dropLast (l : List Nat) (h : l ≠ []) (hnd : l.Nodup) :
    l.getLast h ∉ l.dropLast := by
  have heq : l.dropLast ++ [l.getLast h] = l := List.dropLast_append_getLast h
  rw [← heq] at hnd
  exact not_mem_of_nodup_append_singleton hnd

theorem length_le_of_nodup_bounded (l : List Nat) (n : Nat) (hnd : l.Nodup)
    (hb : ∀ i ∈ l, i < n) : l.length ≤ n := by
  classical
  have h1 : l.toFinset.card = l.length := List.toFinset_card_of_nodup hnd
  have h2 : l.toFinset ⊆ Finset.range n := by
    intro x hx
    rw [List.mem_toFinset] at hx
    rw [Finset.mem_range]
    exact hb x hx
  have h3 := Finset.card_le_card h2
  rw [h1, Finset.card_range] at h3
  exact h3

/-! ## Walk lemmas -/

theorem walkF_at_stop (step : Nat → Option Nat) (stop fuel : Nat) :
    walkF step stop fuel stop = [stop] := by
  cases fuel <;> simp [walkF]

/-- A walk that starts at `a` and follows a chain `a :: l ++ [z]` of `step`
links reaches `z` and visits exactly the chain, provided the stop `z` does not
occur earlier and the fuel covers the chain length. -/
theorem walkF_eq (step : Nat → Option Nat) (z : Nat) (l : List Nat) (a : Nat)
    (fuel : Nat)
    (hchain : List.Chain' (fun x y => step x = some y) (a :: l ++ [z]))
    (hz : z ∉ a :: l) (hfuel : l.length + 1 ≤ fuel) :
    walkF step z fuel a = a :: l ++ [z] := by
  induction l generalizing a fuel with
  | nil =>
    obtain ⟨f, rfl⟩ : ∃ f, fuel = f + 1 := ⟨fuel - 1, by omega⟩
    have ha : a ≠ z := by
      intro hza
      exact hz (by simp [hza])
    have hs : step a = some z := (List.chain'_cons.mp hchain).1
    simp [walkF, ha, hs, walkF_at_stop]
  | cons b t ih =>
    obtain ⟨f, rfl⟩ : ∃ f, fuel = f + 1 := ⟨fuel - 1, by omega⟩
    have ha : a ≠ z := by
      intro hza
      exact hz (by simp [hza])
    have h1 : step a = some b ∧ List.Chain' (fun x y => step x = some y) (b :: t ++ [z]) := by
      rw [List.cons_append] at hchain
      exact List.chain'_cons.mp hchain
    have hz' : z ∉ b :: t := by
      intro hmem
      exact hz (List.mem_cons_of_mem a hmem)
    have hrec := ih b f h1.2 hz' (by simp at hfuel ⊢; omega)
    simp [walkF, ha, h1.1, hrec]

/-- Under `Rep`, the chain of real elements is unique. -/
theorem rep_unique {s : LList} {xs xs' : List Nat} (h : Rep s xs) (h' : Rep s xs') :
    xs = xs' := by
  obtain ⟨hf, _, hnd, hbd⟩ := h
  obtain ⟨hf', _, hnd', hbd'⟩ := h'
  have hlen : (fullChain s xs).length ≤ s.alloc :=
    length_le_of_nodup_bounded _ _ hnd hbd
  have hlen' : (fullChain s xs').length ≤ s.alloc :=
    length_le_of_nodup_bounded _ _ hnd' hbd'
  have hz : s.Tail ∉ s.Head :: xs := by
    have : ((s.Head :: xs) ++ [s.Tail]).Nodup := by
      simpa [fullChain] using hnd
    exact not_mem_of_nodup_append_singleton this
  have hz' : s.Tail ∉ s.Head :: xs' := by
    have : ((s.Head :: xs') ++ [s.Tail]).Nodup := by
      simpa [fullChain] using hnd'
    exact not_mem_of_nodup_append_singleton this
  have w1 : walkF (nextIdx s) s.Tail s.alloc s.Head = s.Head :: xs ++ [s.Tail] :=
    walkF_eq (nextIdx s) s.Tail xs s.Head s.alloc hf hz
      (by simp [fullChain] at hlen; omega)
  have w2 : walkF (nextIdx s) s.Tail s.alloc s.Head = s.Head :: xs' ++ [s.Tail] :=
    walkF_eq (nextIdx s) s.Tail xs' s.Head s.alloc hf' hz'
      (by simp [fullChain] at hlen'; omega)
  have := w1.symm.trans w2
  simpa using this

/-! ## Preservation lemmas for the operations -/

theorem rep_init (now : Int) : Rep (InitList now) [] := by
  refine ⟨?_, ?_, ?_, ?_⟩ <;> simp [InitList, fullChain, nextLink, prevLink, nextIdx, prevIdx, hupd]

/-- Effect of `Insert` on a well-represented list: the fresh node becomes the
new element right after the head sentinel, everything else keeps its place,
keys of existing nodes are untouched, and the size counter is bumped with
int32 wraparound. -/
theorem insert_master (s : LList) (xs : List Nat) (h : Rep s xs) (k v : String)
    (ttl now : Int) :
    Rep (Insert s k v ttl now).list (s.alloc :: xs) ∧
    (Insert s k v ttl now).list.Head = s.Head ∧
    (Insert s k v ttl now).list.Tail = s.Tail ∧
    (Insert s k v ttl now).list.alloc = s.alloc + 1 ∧
    (Insert s k v ttl now).list.Size = wrap32 (s.Size + 1) ∧
    (Insert s k v ttl now).node = some s.alloc ∧
    (Insert s k v ttl now).err = none ∧
    ((Insert s k v ttl now).list.mem s.alloc).Key = k ∧
    (∀ j, j ≠ s.alloc → ((Insert s k v ttl now).list.mem j).Key = (s.mem j).Key) := by
  obtain ⟨hf, hb, hnd, hbd⟩ := h
  obtain ⟨m, rest, hmr⟩ : ∃ m rest, xs ++ [s.Tail] = m :: rest := by
    cases xs with
    | nil => exact ⟨s.Tail, [], rfl⟩
    | cons x t => exact ⟨x, t ++ [s.Tail], rfl⟩
  have hfc0 : fullChain s xs = s.Head :: m :: rest := by
    simp [fullChain, hmr]
  rw [hfc0] at hf hb hnd hbd
  have hm_lt : m < s.alloc := hbd m (by simp)
  have hhead_lt : s.Head < s.alloc := hbd s.Head (by simp)
  have hne_head : s.Head ≠ s.alloc := Nat.ne_of_lt hhead_lt
  have hne_m : m ≠ s.alloc := Nat.ne_of_lt hm_lt
  have hhead_notmem : s.Head ∉ m :: rest := (List.nodup_cons.mp hnd).1
  have hm_ne_head : m ≠ s.Head := fun hc => hhead_notmem (by simp [hc])
  have hm_notmem : m ∉ rest := (List.nodup_cons.mp (List.nodup_cons.mp hnd).2).1
  have hHm : (s.mem s.Head).Next = some m := (List.chain'_cons.mp hf).1
  set s' := (Insert s k v ttl now).list with hs'
  have hHead : s'.Head = s.Head := by simp [hs', Insert]
  have hTail : s'.Tail = s.Tail := by simp [hs', Insert]
  have hAlloc : s'.alloc = s.alloc + 1 := by simp [hs', Insert]
  have hSize : s'.Size = wrap32 (s.Size + 1) := by simp [hs', Insert]
  have E1 : s'.mem s.alloc =
      { Key := k, Value := v, TTL := ttl, CreatedAt := now,
        Prev := some s.Head, Next := some m } := by
    simp [hs', Insert, hHm, setPrevAt, hupd, hne_m.symm, hne_head.symm]
  have E2 : s'.mem s.Head = { s.mem s.Head with Next := some s.alloc } := by
    simp [hs', Insert, hHm, setPrevAt, hupd, hne_head, hm_ne_head.symm]
  have E3 : s'.mem m = { s.mem m with Prev := some s.alloc } := by
    simp [hs', Insert, hHm, setPrevAt, hupd, hne_m, hm_ne_head]
  have E4 : ∀ j, j ≠ s.alloc → j ≠ s.Head → j ≠ m → s'.mem j = s.mem j := by
    intro j h1 h2 h3
    simp [hs', Insert, hHm, setPrevAt, hupd, h1, h2, h3]
  have hNextPres : ∀ a, a ≠ s.alloc → a ≠ s.Head → nextIdx s' a = nextIdx s a := by
    intro a h1 h2
    by_cases ham : a = m
    · subst ham
      simp [nextIdx, E3]
    · simp [nextIdx, E4 a h1 h2 ham]
  have hPrevPres : ∀ a, a ≠ s.alloc → a ≠ m → prevIdx s' a = prevIdx s a := by
    intro a h1 h2
    by_cases hah : a = s.Head
    · subst hah
      simp [prevIdx, E2]
    · simp [prevIdx, E4 a h1 hah h2]
  have hfc1 : fullChain s' (s.alloc :: xs) = s.Head :: s.alloc :: m :: rest := by
    simp [fullChain, hHead, hTail, hmr]
  refine ⟨⟨?_, ?_, ?_, ?_⟩, hHead, hTail, hAlloc, hSize, by simp [Insert], by simp [Insert],
      by simp [E1], ?_⟩
  · -- forward chain
    rw [hfc1, List.chain'_cons, List.chain'_cons]
    refine ⟨?_, ?_, ?_⟩
    · show nextIdx s' s.Head = some s.alloc
      simp [nextIdx, E2]
    · show nextIdx s' s.alloc = some m
      simp [nextIdx, E1]
    · refine chainNext_congr (m :: rest) ?_ (List.chain'_cons.mp hf).2
      intro a ha
      have ham : a ∈ m :: rest := List.dropLast_subset _ ha
      have h1 : a ≠ s.alloc := Nat.ne_of_lt (hbd a (by simp [List.mem_cons_of_mem, ham]))
      have h2 : a ≠ s.Head := fun hc => hhead_notmem (hc ▸ ham)
      exact hNextPres a h1 h2
  · -- backward chain
    rw [hfc1, List.chain'_cons, List.chain'_cons]
    refine ⟨?_, ?_, ?_⟩
    · show prevIdx s' s.alloc = some s.Head
      simp [prevIdx, E1]
    · show prevIdx s' m = some s.alloc
      simp [prevIdx, E3]
    · refine chainPrev_congr (m :: rest) ?_ (List.chain'_cons.mp hb).2
      intro a ha
      have ham : a ∈ rest := ha
      have h1 : a ≠ s.alloc := Nat.ne_of_lt (hbd a (by simp [List.mem_cons_of_mem, ham]))
      have h2 : a ≠ m := fun hc => hm_notmem (hc ▸ ham)
      exact hPrevPres a h1 h2
  · -- nodup
    rw [hfc1]
    have hn1 : s.alloc ∉ s.Head :: m :: rest := by
      intro hc
      exact absurd (hbd s.alloc hc) (by omega)
    rw [List.nodup_cons] at hnd ⊢
    refine ⟨?_, ?_⟩
    · intro hc
      rcases List.mem_cons.mp hc with hc1 | hc2
      · exact hne_head hc1
      · exact hnd.1 hc2
    · rw [List.nodup_cons]
      exact ⟨fun hc => hn1 (List.mem_cons_of_mem _ hc), hnd.2⟩
  · -- bounded
    rw [hfc1, hAlloc]
    intro i hi
    rcases List.mem_cons.mp hi with h1 | h1
    · omega
    · rcases List.mem_cons.mp h1 with h2 | h2
      · omega
      · have := hbd i (List.mem_cons_of_mem _ h2)
        omega
  · -- keys of old nodes untouched
    intro j hj
    by_cases h2 : j = s.Head
    · subst h2
      simp [E2]
    · by_cases h3 : j = m
      · subst h3
        simp [E3]
      · simp [E4 j hj h2 h3]

/-- Effect of `RemoveLast` on a well-represented nonempty list (`xs₀ ++ [lst]`
being the real elements): the tail-adjacent element `lst` is unlinked and
returned, its own record untouched, and the size counter is decremented with
int32 wraparound. -/
theorem removeLast_split (s : LList) (xs₀ : List Nat) (lst : Nat)
    (h : Rep s (xs₀ ++ [lst])) (hsz : s.Size ≠ 0) :
    Rep (RemoveLast s).list xs₀ ∧
    (RemoveLast s).list.Head = s.Head ∧
    (RemoveLast s).list.Tail = s.Tail ∧
    (RemoveLast s).list.alloc = s.alloc ∧
    (RemoveLast s).list.Size = wrap32 (s.Size - 1) ∧
    (RemoveLast s).node = some lst ∧
    (RemoveLast s).err = none ∧
    (RemoveLast s).list.mem lst = s.mem lst := by
  obtain ⟨hf, hb, hnd, hbd⟩ := h
  have hfc0 : fullChain s (xs₀ ++ [lst]) = (s.Head :: xs₀) ++ [lst, s.Tail] := by
    simp [fullChain]
  rw [hfc0] at hf hb hnd hbd
  have hAne : (s.Head :: xs₀) ≠ [] := List.cons_ne_nil _ _
  have hgl : (s.Head :: xs₀).getLast? = some ((s.Head :: xs₀).getLast hAne) :=
    List.getLast?_eq_getLast _ hAne
  have hp_mem : (s.Head :: xs₀).getLast hAne ∈ s.Head :: xs₀ := List.getLast_mem hAne
  have hndA : (s.Head :: xs₀).Nodup := (List.nodup_append.mp hnd).1
  have hdisj : (s.Head :: xs₀).Disjoint [lst, s.Tail] := (List.nodup_append.mp hnd).2.2
  have hnd2 : ([lst, s.Tail] : List Nat).Nodup := (List.nodup_append.mp hnd).2.1
  have hlstTail : lst ≠ s.Tail := by
    have := (List.nodup_cons.mp hnd2).1
    simp at this
    exact this
  have hlst_notA : lst ∉ s.Head :: xs₀ := fun hc => hdisj hc (by simp)
  have hTail_notA : s.Tail ∉ s.Head :: xs₀ := fun hc => hdisj hc (by simp)
  have hp_ne_lst : (s.Head :: xs₀).getLast hAne ≠ lst := fun hc => hlst_notA (hc ▸ hp_mem)
  have hp_ne_tail : (s.Head :: xs₀).getLast hAne ≠ s.Tail := fun hc => hTail_notA (hc ▸ hp_mem)
  have hfA : List.Chain' (nextLink s) (s.Head :: xs₀) := (List.chain'_append.mp hf).1
  have hbA : List.Chain' (prevLink s) (s.Head :: xs₀) := (List.chain'_append.mp hb).1
  have hp_next : nextIdx s ((s.Head :: xs₀).getLast hAne) = some lst := by
    have := (List.chain'_append.mp hf).2.2
    exact this _ hgl lst rfl
  have hlst_next : nextIdx s lst = some s.Tail := by
    have := (List.chain'_append.mp hf).2.1
    exact (List.chain'_cons.mp this).1
  have hlst_prev : prevIdx s lst = some ((s.Head :: xs₀).getLast hAne) := by
    have := (List.chain'_append.mp hb).2.2
    exact this _ hgl lst rfl
  have htail_prev : prevIdx s s.Tail = some lst := by
    have := (List.chain'_append.mp hb).2.1
    exact (List.chain'_cons.mp this).1
  have hPrevTail : (s.mem s.Tail).Prev = some lst := htail_prev
  have hPrevLst : (s.mem lst).Prev = some ((s.Head :: xs₀).getLast hAne) := hlst_prev
  set p := (s.Head :: xs₀).getLast hAne with hp
  set s' := (RemoveLast s).list with hs'
  have hHead : s'.Head = s.Head := by simp [hs', RemoveLast, hsz]
  have hTail : s'.Tail = s.Tail := by simp [hs', RemoveLast, hsz]
  have hAlloc : s'.alloc = s.alloc := by simp [hs', RemoveLast, hsz]
  have hSize : s'.Size = wrap32 (s.Size - 1) := by simp [hs', RemoveLast, hsz]
  have E1 : s'.mem p = { s.mem p with Next := some s.Tail } := by
    simp [hs', RemoveLast, hsz, hPrevTail, hPrevLst, deref, setNextAt, hupd, hp_ne_tail]
  have E2 : s'.mem s.Tail = { s.mem s.Tail with Prev := some p } := by
    simp [hs', RemoveLast, hsz, hPrevTail, hPrevLst, deref, setNextAt, hupd, hp_ne_tail.symm]
  have E3 : ∀ j, j ≠ p → j ≠ s.Tail → s'.mem j = s.mem j := by
    intro j h1 h2
    simp [hs', RemoveLast, hsz, hPrevTail, hPrevLst, deref, setNextAt, hupd, h1, h2]
  have hNextPres : ∀ a, a ≠ p → nextIdx s' a = nextIdx s a := by
    intro a h1
    by_cases hat : a = s.Tail
    · subst hat
      simp [nextIdx, E2]
    · simp [nextIdx, E3 a h1 hat]
  have hPrevPres : ∀ a, a ≠ s.Tail → prevIdx s' a = prevIdx s a := by
    intro a h1
    by_cases hap : a = p
    · subst hap
      simp [prevIdx, E1]
    · simp [prevIdx, E3 a hap h1]
  have hfc1 : fullChain s' xs₀ = (s.Head :: xs₀) ++ [s.Tail] := by
    simp [fullChain, hHead, hTail]
  refine ⟨⟨?_, ?_, ?_, ?_⟩, hHead, hTail, hAlloc, hSize,
      by simp [RemoveLast, hsz, hPrevTail], by simp [RemoveLast, hsz],
      E3 lst hp_ne_lst.symm hlstTail⟩
  · -- forward chain
    rw [hfc1]
    refine List.chain'_append.mpr ⟨?_, List.chain'_singleton _, ?_⟩
    · refine chainNext_congr _ ?_ hfA
      intro a ha
      refine hNextPres a fun hc => getLast_not_mem_dropLast _ hAne hndA ?_
      rw [← hp, ← hc]
      exact ha
    · intro x hx y hy
      rw [hgl] at hx
      simp at hx hy
      subst hx
      subst hy
      show nextIdx s' p = some s.Tail
      simp [nextIdx, E1]
  · -- backward chain
    rw [hfc1]
    refine List.chain'_append.mpr ⟨?_, List.chain'_singleton _, ?_⟩
    · refine chainPrev_congr _ ?_ hbA
      intro a ha
      refine hPrevPres a fun hc => hTail_notA ?_
      rw [← hc]
      exact List.mem_of_mem_tail ha
    · intro x hx y hy
      rw [hgl] at hx
      simp at hx hy
      subst hx
      subst hy
      show prevIdx s' s.Tail = some p
      simp [prevIdx, E2]
  · -- nodup
    rw [hfc1, List.nodup_append]
    refine ⟨hndA, by simp, ?_⟩
    intro a haA haT
    simp at haT
    exact hTail_notA (haT ▸ haA)
  · -- bounded
    rw [hfc1, hAlloc]
    intro i hi
    rcases List.mem_append.mp hi with h1 | h1
    · exact hbd i (List.mem_append.mpr (Or.inl h1))
    · simp at h1
      subst h1
      exact hbd s.Tail (List.mem_append.mpr (Or.inr (by simp)))

/-- Effect of `RemoveNode` (relink path, `Size ∉ {0, 1}`) on a
well-represented list whose real elements are `xs₁ ++ e :: xs₂`: the node `e`
is unlinked and returned with its own record untouched, its two neighbours now
point at each other, and the size counter is decremented with int32
wraparound. -/
theorem removeNode_split (s : LList) (xs₁ xs₂ : List Nat) (e : Nat)
    (h : Rep s (xs₁ ++ e :: xs₂)) (h0 : s.Size ≠ 0) (h1 : s.Size ≠ 1) :
    Rep (RemoveNode s e).list (xs₁ ++ xs₂) ∧
    (RemoveNode s e).list.Head = s.Head ∧
    (RemoveNode s e).list.Tail = s.Tail ∧
    (RemoveNode s e).list.alloc = s.alloc ∧
    (RemoveNode s e).list.Size = wrap32 (s.Size - 1) ∧
    (RemoveNode s e).node = some e ∧
    (RemoveNode s e).err = none ∧
    (RemoveNode s e).list.mem e = s.mem e ∧
    (∀ p, prevIdx s e = some p → nextIdx (RemoveNode s e).list p = nextIdx s e) ∧
    (∀ q, nextIdx s e = some q → prevIdx (RemoveNode s e).list q = prevIdx s e) := by
  obtain ⟨hf, hb, hnd, hbd⟩ := h
  obtain ⟨q, B', hqB⟩ : ∃ q B', xs₂ ++ [s.Tail] = q :: B' := by
    cases xs₂ with
    | nil => exact ⟨s.Tail, [], rfl⟩
    | cons x t => exact ⟨x, t ++ [s.Tail], rfl⟩
  have hfc0 : fullChain s (xs₁ ++ e :: xs₂) = (s.Head :: xs₁) ++ e :: (xs₂ ++ [s.Tail]) := by
    simp [fullChain]
  rw [hfc0] at hf hb hnd hbd
  have hAne : (s.Head :: xs₁) ≠ [] := List.cons_ne_nil _ _
  have hgl : (s.Head :: xs₁).getLast? = some ((s.Head :: xs₁).getLast hAne) :=
    List.getLast?_eq_getLast _ hAne
  have hp_mem : (s.Head :: xs₁).getLast hAne ∈ s.Head :: xs₁ := List.getLast_mem hAne
  have hndA : (s.Head :: xs₁).Nodup := (List.nodup_append.mp hnd).1
  have hndEB : (e :: (xs₂ ++ [s.Tail])).Nodup := (List.nodup_append.mp hnd).2.1
  have hdisj : (s.Head :: xs₁).Disjoint (e :: (xs₂ ++ [s.Tail])) :=
    (List.nodup_append.mp hnd).2.2
  have he_notB : e ∉ xs₂ ++ [s.Tail] := (List.nodup_cons.mp hndEB).1
  have hndB : (xs₂ ++ [s.Tail]).Nodup := (List.nodup_cons.mp hndEB).2
  have he_notA : e ∉ s.Head :: xs₁ := fun hc => hdisj hc (by simp)
  have hq_mem : q ∈ xs₂ ++ [s.Tail] := by
    rw [hqB]
    simp
  have hp_ne_e : (s.Head :: xs₁).getLast hAne ≠ e := fun hc => he_notA (hc ▸ hp_mem)
  have hp_ne_q : (s.Head :: xs₁).getLast hAne ≠ q := fun hc => by
    refine hdisj hp_mem ?_
    rw [hc]
    exact List.mem_cons_of_mem _ hq_mem
  have he_ne_q : e ≠ q := fun hc => he_notB (hc ▸ hq_mem)
  have hfA : List.Chain' (nextLink s) (s.Head :: xs₁) := (List.chain'_append.mp hf).1
  have hbA : List.Chain' (prevLink s) (s.Head :: xs₁) := (List.chain'_append.mp hb).1
  have hfEB : List.Chain' (nextLink s) (e :: (xs₂ ++ [s.Tail])) := (List.chain'_append.mp hf).2.1
  have hbEB : List.Chain' (prevLink s) (e :: (xs₂ ++ [s.Tail])) := (List.chain'_append.mp hb).2.1
  have hfB : List.Chain' (nextLink s) (xs₂ ++ [s.Tail]) := by
    rw [hqB] at hfEB ⊢
    exact (List.chain'_cons.mp hfEB).2
  have hbB : List.Chain' (prevLink s) (xs₂ ++ [s.Tail]) := by
    rw [hqB] at hbEB ⊢
    exact (List.chain'_cons.mp hbEB).2
  have he_next : nextIdx s e = some q := by
    rw [hqB] at hfEB
    exact (List.chain'_cons.mp hfEB).1
  have hq_prev : prevIdx s q = some e := by
    rw [hqB] at hbEB
    exact (List.chain'_cons.mp hbEB).1
  have he_prev : prevIdx s e = some ((s.Head :: xs₁).getLast hAne) := by
    have := (List.chain'_append.mp hb).2.2
    refine this _ hgl e ?_
    simp
  have hp_next : nextIdx s ((s.Head :: xs₁).getLast hAne) = some e := by
    have := (List.chain'_append.mp hf).2.2
    refine this _ hgl e ?_
    simp
  have hePrev : (s.mem e).Prev = some ((s.Head :: xs₁).getLast hAne) := he_prev
  have heNext : (s.mem e).Next = some q := he_next
  set p := (s.Head :: xs₁).getLast hAne with hp
  set s' := (RemoveNode s e).list with hs'
  have hHead : s'.Head = s.Head := by simp [hs', RemoveNode, h0, h1]
  have hTail : s'.Tail = s.Tail := by simp [hs', RemoveNode, h0, h1]
  have hAlloc : s'.alloc = s.alloc := by simp [hs', RemoveNode, h0, h1]
  have hSize : s'.Size = wrap32 (s.Size - 1) := by simp [hs', RemoveNode, h0, h1]
  have E1 : s'.mem p = { s.mem p with Next := some q } := by
    simp [hs', RemoveNode, h0, h1, hePrev, heNext, setNextAt, setPrevAt, hupd, hp_ne_q]
  have E2 : s'.mem q = { s.mem q with Prev := some p } := by
    simp [hs', RemoveNode, h0, h1, hePrev, heNext, setNextAt, setPrevAt, hupd, hp_ne_q.symm]
  have E3 : ∀ j, j ≠ p → j ≠ q → s'.mem j = s.mem j := by
    intro j hjp hjq
    simp [hs', RemoveNode, h0, h1, hePrev, heNext, setNextAt, setPrevAt, hupd, hjp, hjq]
  have hNextPres : ∀ a, a ≠ p → nextIdx s' a = nextIdx s a := by
    intro a ha
    by_cases haq : a = q
    · subst haq
      simp [nextIdx, E2]
    · simp [nextIdx, E3 a ha haq]
  have hPrevPres : ∀ a, a ≠ q → prevIdx s' a = prevIdx s a := by
    intro a ha
    by_cases hap : a = p
    · subst hap
      simp [prevIdx, E1]
    · simp [prevIdx, E3 a hap ha]
  have hfc1 : fullChain s' (xs₁ ++ xs₂) = (s.Head :: xs₁) ++ (xs₂ ++ [s.Tail]) := by
    simp [fullChain, hHead, hTail]
  refine ⟨⟨?_, ?_, ?_, ?_⟩, hHead, hTail, hAlloc, hSize,
      by simp [RemoveNode, h0, h1], by simp [RemoveNode, h0, h1],
      E3 e hp_ne_e.symm he_ne_q, ?_, ?_⟩
  · -- forward chain
    rw [hfc1]
    refine List.chain'_append.mpr ⟨?_, ?_, ?_⟩
    · refine chainNext_congr _ ?_ hfA
      intro a ha
      refine hNextPres a fun hc => getLast_not_mem_dropLast _ hAne hndA ?_
      rw [← hp, ← hc]
      exact ha
    · refine chainNext_congr _ ?_ hfB
      intro a ha
      refine hNextPres a fun hc => ?_
      refine hdisj (hc ▸ hp_mem) (List.mem_cons_of_mem _ ?_)
      exact List.dropLast_subset _ ha
    · intro x hx y hy
      rw [hgl] at hx
      rw [hqB] at hy
      simp at hx hy
      subst hx
      subst hy
      show nextIdx s' p = some q
      simp [nextIdx, E1]
  · -- backward chain
    rw [hfc1]
    refine List.chain'_append.mpr ⟨?_, ?_, ?_⟩
    · refine chainPrev_congr _ ?_ hbA
      intro a ha
      refine hPrevPres a fun hc => ?_
      refine hdisj (List.mem_of_mem_tail ha) (List.mem_cons_of_mem _ ?_)
      rw [hc]
      exact hq_mem
    · refine chainPrev_congr _ ?_ hbB
      intro a ha
      refine hPrevPres a fun hc => ?_
      rw [hqB] at hndB ha
      exact (List.nodup_cons.mp hndB).1 (hc ▸ ha)
    · intro x hx y hy
      rw [hgl] at hx
      rw [hqB] at hy
      simp at hx hy
      subst hx
      subst hy
      show prevIdx s' q = some p
      simp [prevIdx, E2]
  · -- nodup
    rw [hfc1]
    have hsub : List.Sublist ((s.Head :: xs₁) ++ (xs₂ ++ [s.Tail]))
        ((s.Head :: xs₁) ++ e :: (xs₂ ++ [s.Tail])) := by
      exact (List.sublist_cons_self e _).append_left _
    exact hnd.sublist hsub
  · -- bounded
    rw [hfc1, hAlloc]
    intro i hi
    refine hbd i ?_
    rcases List.mem_append.mp hi with h2 | h2
    · exact List.mem_append.mpr (Or.inl h2)
    · exact List.mem_append.mpr (Or.inr (List.mem_cons_of_mem _ h2))
  · -- left neighbour now points at the right neighbour
    intro p' hp'
    rw [he_prev] at hp'
    have hpp : p' = p := (Option.some.inj hp').symm
    subst hpp
    rw [he_next]
    show nextIdx s' p = some q
    simp [nextIdx, E1]
  · -- right neighbour now points back at the left neighbour
    intro q' hq'
    rw [he_next] at hq'
    have hqq : q' = q := (Option.some.inj hq').symm
    rw [hqq, he_prev]
    show prevIdx s' q = some p
    simp [prevIdx, E2]

theorem wrap32_sub_left (x y : Int) : wrap32 (wrap32 x - y) = wrap32 (x - y) := by
  unfold wrap32
  omega

theorem removeLast_list_zero {s : LList} (h : s.Size = 0) : (RemoveLast s).list = s := by
  simp [RemoveLast, h]

theorem removeNode_list_zero {s : LList} (e : Nat) (h : s.Size = 0) :
    (RemoveNode s e).list = s := by
  simp [RemoveNode, h]

theorem removeNode_one {s : LList} (e : Nat) (h : s.Size = 1) :
    (RemoveNode s e).list = (RemoveLast s).list ∧
    (RemoveNode s e).node = (RemoveLast s).node ∧
    (RemoveNode s e).err = none := by
  rw [RemoveNode]
  rw [h]
  norm_num

theorem getLastNode_list (s : LList) : (GetLastNode s).list = s := by
  unfold GetLastNode
  split <;> rfl

/-- Tail-side links of a represented nonempty list: `Tail.Prev` is the last
real element, whose `Next` is `Tail` and whose `Prev` is its predecessor in
the chain (head sentinel if it is the only element). -/
theorem rep_last_links (s : LList) (xs₀ : List Nat) (lst : Nat)
    (h : Rep s (xs₀ ++ [lst])) :
    prevIdx s s.Tail = some lst ∧ nextIdx s lst = some s.Tail ∧
    prevIdx s lst = some ((s.Head :: xs₀).getLast (List.cons_ne_nil _ _)) := by
  obtain ⟨hf, hb, hnd, hbd⟩ := h
  have hfc0 : fullChain s (xs₀ ++ [lst]) = (s.Head :: xs₀) ++ [lst, s.Tail] := by
    simp [fullChain]
  rw [hfc0] at hf hb
  have hAne : (s.Head :: xs₀) ≠ [] := List.cons_ne_nil _ _
  have hgl : (s.Head :: xs₀).getLast? = some ((s.Head :: xs₀).getLast hAne) :=
    List.getLast?_eq_getLast _ hAne
  refine ⟨?_, ?_, ?_⟩
  · exact (List.chain'_cons.mp (List.chain'_append.mp hb).2.1).1
  · exact (List.chain'_cons.mp (List.chain'_append.mp hf).2.1).1
  · exact (List.chain'_append.mp hb).2.2 _ hgl lst rfl

/-- The states reachable from `InitList` by the list operations, with
`RemoveNode` applied only to a currently-linked real element. -/
inductive Valid : LList → Prop where
  | init (now : Int) : Valid (InitList now)
  | insert (s : LList) (k v : String) (ttl now : Int) :
      Valid s → Valid (Insert s k v ttl now).list
  | removeLast (s : LList) : Valid s → Valid (RemoveLast s).list
  | removeNode (s : LList) (e : Nat) :
      Valid s → (∃ xs, Inv s xs ∧ e ∈ xs) → Valid (RemoveNode s e).list
  | getLast (s : LList) : Valid s → Valid (GetLastNode s).list

/-- Every reachable state is well-represented, with the int32 `Size` field
holding the wraparound of the real element count. -/
theorem valid_inv {s : LList} (h : Valid s) : ∃ xs, Inv s xs := by
  induction h with
  | init now =>
    exact ⟨[], rep_init now, by simp [SizeInv, InitList, wrap32_zero]⟩
  | insert t k v ttl now hv ih =>
    obtain ⟨xs, hrep, hsz⟩ := ih
    obtain ⟨hrep', hH, hT, hA, hS, _, _, _, _⟩ := insert_master t xs hrep k v ttl now
    refine ⟨t.alloc :: xs, hrep', ?_⟩
    show (Insert t k v ttl now).list.Size = wrap32 ((t.alloc :: xs).length : Int)
    rw [hS, hsz, wrap32_add_left]
    congr 1
    try push_cast
    try ring
  | removeLast t hv ih =>
    obtain ⟨xs, hrep, hsz⟩ := ih
    by_cases h0 : t.Size = 0
    · rw [removeLast_list_zero h0]
      exact ⟨xs, hrep, hsz⟩
    · have hx : xs ≠ [] := by
        intro hnil
        subst hnil
        simp [SizeInv, wrap32_zero] at hsz
        exact h0 hsz
      have hsplit : xs.dropLast ++ [xs.getLast hx] = xs := List.dropLast_append_getLast hx
      rw [← hsplit] at hrep
      obtain ⟨hrep', hH, hT, hA, hS, _, _, _⟩ :=
        removeLast_split t xs.dropLast (xs.getLast hx) hrep h0
      refine ⟨xs.dropLast, hrep', ?_⟩
      show (RemoveLast t).list.Size = wrap32 ((xs.dropLast.length : Nat) : Int)
      rw [hS, hsz, wrap32_sub_left]
      congr 1
      have hlen : xs.length ≠ 0 := fun hc => hx (List.length_eq_zero.mp hc)
      rw [List.length_dropLast]
      omega
  | removeNode t e hv hlink ih =>
    obtain ⟨xs, hrep, hsz⟩ := ih
    by_cases h0 : t.Size = 0
    · rw [removeNode_list_zero e h0]
      exact ⟨xs, hrep, hsz⟩
    · by_cases h1 : t.Size = 1
      · rw [(removeNode_one e h1).1]
        have hx : xs ≠ [] := by
          intro hnil
          subst hnil
          simp [SizeInv, wrap32_zero] at hsz
          exact h0 hsz
        have hsplit : xs.dropLast ++ [xs.getLast hx] = xs := List.dropLast_append_getLast hx
        rw [← hsplit] at hrep
        obtain ⟨hrep', hH, hT, hA, hS, _, _, _⟩ :=
          removeLast_split t xs.dropLast (xs.getLast hx) hrep h0
        refine ⟨xs.dropLast, hrep', ?_⟩
        show (RemoveLast t).list.Size = wrap32 ((xs.dropLast.length : Nat) : Int)
        rw [hS, hsz, wrap32_sub_left]
        congr 1
        have hlen : xs.length ≠ 0 := fun hc => hx (List.length_eq_zero.mp hc)
        rw [List.length_dropLast]
        omega
      · obtain ⟨xs', hinv', hmem⟩ := hlink
        have hxs : xs' = xs := rep_unique hinv'.1 hrep
        subst hxs
        obtain ⟨xs₁, xs₂, hsplit⟩ := List.append_of_mem hmem
        rw [hsplit] at hrep
        obtain ⟨hrep', hH, hT, hA, hS, _, _, _, _, _⟩ :=
          removeNode_split t xs₁ xs₂ e hrep h0 h1
        refine ⟨xs₁ ++ xs₂, hrep', ?_⟩
        show (RemoveNode t e).list.Size = wrap32 (((xs₁ ++ xs₂).length : Nat) : Int)
        rw [hS, hsz, hsplit, wrap32_sub_left]
        congr 1
        simp
        omega
  | getLast t hv ih =>
    rw [getLastNode_list]
    exact ih

theorem insert_size (s : LList) (k v : String) (ttl now : Int) :
    (Insert s k v ttl now).list.Size = wrap32 (s.Size + 1) := by
  simp [Insert]

theorem sizeInv_insert {s : LList} {xs : List Nat} (h : SizeInv s xs) (k v : String)
    (ttl now : Int) : SizeInv (Insert s k v ttl now).list (s.alloc :: xs) := by
  show _ = wrap32 _
  rw [insert_size, h, wrap32_add_left]
  congr 1
  try push_cast
  try ring

theorem valid_runInserts (L : List (String × String × Int × Int)) {s : LList}
    (h : Valid s) : Valid (runInserts s L) := by
  induction L generalizing s with
  | nil => exact h
  | cons a rest ih => exact ih (Valid.insert s a.1 a.2.1 a.2.2.1 a.2.2.2 h)

/-- Running a batch of inserts on a well-represented list prepends the batch's
keys, in reverse order of insertion, to the chain. -/
theorem runInserts_master (L : List (String × String × Int × Int)) :
    ∀ (s : LList) (xs : List Nat), Rep s xs → SizeInv s xs →
    ∃ xs', Rep (runInserts s L) xs' ∧ SizeInv (runInserts s L) xs' ∧
      xs'.length = L.length + xs.length ∧
      chainKeysOf (runInserts s L) xs' = (L.map fun e => e.1).reverse ++ chainKeysOf s xs := by
  induction L with
  | nil =>
    intro s xs h1 h2
    exact ⟨xs, h1, h2, by simp, by rfl⟩
  | cons a rest ih =>
    intro s xs h1 h2
    obtain ⟨hrep', hH, hT, hA, hS, hn, he, hk, hks⟩ :=
      insert_master s xs h1 a.1 a.2.1 a.2.2.1 a.2.2.2
    have hxs_ne : ∀ j ∈ xs, j ≠ s.alloc := by
      intro j hj
      have : j ∈ fullChain s xs := by
        simp [fullChain]
        right
        left
        exact hj
      exact Nat.ne_of_lt (h1.2.2.2 j this)
    have hkeys : chainKeysOf (Insert s a.1 a.2.1 a.2.2.1 a.2.2.2).list (s.alloc :: xs) =
        a.1 :: chainKeysOf s xs := by
      show List.map _ (s.alloc :: xs) = _
      rw [List.map_cons, hk, List.map_congr_left fun j hj => hks j (hxs_ne j hj)]
      rfl
    obtain ⟨xs', hr1, hr2, hr3, hr4⟩ :=
      ih (Insert s a.1 a.2.1 a.2.2.1 a.2.2.2).list (s.alloc :: xs) hrep'
        (sizeInv_insert h2 a.1 a.2.1 a.2.2.1 a.2.2.2)
    refine ⟨xs', hr1, hr2, ?_, ?_⟩
    · rw [hr3]
      simp
      omega
    · show chainKeysOf (runInserts (Insert s a.1 a.2.1 a.2.2.1 a.2.2.2).list rest) xs' = _
      rw [hr4, hkeys]
      simp

/-- The executable walks along `Next` (from head) and `Prev` (from tail)
recover the full chain of a represented list, the latter in reverse. -/
theorem rep_walks (s : LList) (xs : List Nat) (h : Rep s xs) :
    walkF (nextIdx s) s.Tail s.alloc s.Head = s.Head :: xs ++ [s.Tail] ∧
    walkF (prevIdx s) s.Head s.alloc s.Tail = s.Tail :: xs.reverse ++ [s.Head] := by
  obtain ⟨hf, hb, hnd, hbd⟩ := h
  have hlen : (fullChain s xs).length ≤ s.alloc := length_le_of_nodup_bounded _ _ hnd hbd
  have hfuel : xs.length + 1 ≤ s.alloc := by
    simp [fullChain] at hlen
    omega
  have hz : s.Tail ∉ s.Head :: xs :=
    not_mem_of_nodup_append_singleton (l := s.Head :: xs) (by simpa [fullChain] using hnd)
  constructor
  · exact walkF_eq (nextIdx s) s.Tail xs s.Head s.alloc hf hz hfuel
  · have hrev : (fullChain s xs).reverse = s.Tail :: xs.reverse ++ [s.Head] := by
      simp [fullChain]
    have hb' : List.Chain' (fun x y => prevIdx s x = some y)
        (s.Tail :: xs.reverse ++ [s.Head]) := by
      rw [← hrev, List.chain'_reverse]
      exact hb
    have hzH : s.Head ∉ s.Tail :: xs.reverse := by
      intro hc
      have hnd' := List.nodup_cons.mp (by simpa [fullChain] using hnd :
        (s.Head :: (xs ++ [s.Tail])).Nodup)
      rcases List.mem_cons.mp hc with h1 | h1
      · exact hnd'.1 (by simp [h1])
      · exact hnd'.1 (List.mem_append.mpr (Or.inl (List.mem_reverse.mp h1)))
    have hfuel' : xs.reverse.length + 1 ≤ s.alloc := by simpa using hfuel
    exact walkF_eq (prevIdx s) s.Head xs.reverse s.Tail s.alloc hb' hzH hfuel'

theorem sizeInv_init (now : Int) : SizeInv (InitList now) [] := by
  simp [SizeInv, InitList, wrap32_zero]

theorem runInserts_init_size (L : List (String × String × Int × Int)) (now : Int) :
    (runInserts (InitList now) L).Size = wrap32 (L.length : Int) := by
  obtain ⟨xs', h1, h2, h3, _⟩ :=
    runInserts_master L (InitList now) [] (rep_init now) (sizeInv_init now)
  rw [h2]
  congr 1
  rw [h3]
  simp

/-- A batch of `2^31` inserts with one repeated key. -/
def repOps : List (String × String × Int × Int) :=
  List.replicate (2 ^ 31) ("k", "v", 0, 0)

/-- The key made of `i` copies of the letter a; distinct for distinct `i`. -/
def keyFn (i : Nat) : String := String.mk (List.replicate i 'a')

/-- A batch of `2^31` inserts with pairwise distinct keys. -/
def bigOps : List (String × String × Int × Int) :=
  (List.range (2 ^ 31)).map fun i => (keyFn i, "v", 0, 0)

theorem keyFn_injective : Function.Injective keyFn := by
  intro i j hij
  simpa [keyFn] using congrArg (fun t => t.data.length) hij

theorem bigOps_keys_nodup : (bigOps.map fun e => e.1).Nodup := by
  unfold bigOps
  rw [List.map_map]
  exact List.Nodup.map (fun a b h => keyFn_injective h) (List.nodup_range _)

/-! ## The claims -/

/-- C1 (amended): starting from `InitList`, with `RemoveNode` applied only to
currently-linked elements, every reachable state has a chain of real elements
`xs` visited exactly by the `Next`-walk from head to tail, whose reverse is
visited by the `Prev`-walk from tail to head, and the `Size` field holds the
int32 wraparound of the element count — hence whenever fewer than `2^31`
elements are linked, `Size` is non-negative and equals the element count. -/
theorem C1_chain_size_invariant {s : LList} (h : Valid s) :
    ∃ xs : List Nat,
      walkF (nextIdx s) s.Tail s.alloc s.Head = s.Head :: xs ++ [s.Tail] ∧
      walkF (prevIdx s) s.Head s.alloc s.Tail = s.Tail :: xs.reverse ++ [s.Head] ∧
      s.Size = wrap32 (xs.length : Int) ∧
      ((xs.length : Int) < 2 ^ 31 → s.Size = (xs.length : Int) ∧ 0 ≤ s.Size) := by
  obtain ⟨xs, hrep, hsz⟩ := valid_inv h
  obtain ⟨hw1, hw2⟩ := rep_walks s xs hrep
  refine ⟨xs, hw1, hw2, hsz, fun hlt => ?_⟩
  have h0 : (0 : Int) ≤ (xs.length : Int) := Int.natCast_nonneg _
  have heq : wrap32 (xs.length : Int) = (xs.length : Int) :=
    wrap32_eq_self (by omega) hlt
  rw [hsz, heq]
  exact ⟨rfl, h0⟩

theorem C1_chain_size_invariant_witness :
    ∃ xs : List Nat,
      walkF (nextIdx (Insert (InitList 0) "a" "x" 60 0).list)
          (Insert (InitList 0) "a" "x" 60 0).list.Tail
          (Insert (InitList 0) "a" "x" 60 0).list.alloc
          (Insert (InitList 0) "a" "x" 60 0).list.Head =
        (Insert (InitList 0) "a" "x" 60 0).list.Head :: xs ++
          [(Insert (InitList 0) "a" "x" 60 0).list.Tail] ∧
      walkF (prevIdx (Insert (InitList 0) "a" "x" 60 0).list)
          (Insert (InitList 0) "a" "x" 60 0).list.Head
          (Insert (InitList 0) "a" "x" 60 0).list.alloc
          (Insert (InitList 0) "a" "x" 60 0).list.Tail =
        (Insert (InitList 0) "a" "x" 60 0).list.Tail :: xs.reverse ++
          [(Insert (InitList 0) "a" "x" 60 0).list.Head] ∧
      (Insert (InitList 0) "a" "x" 60 0).list.Size = wrap32 (xs.length : Int) ∧
      ((xs.length : Int) < 2 ^ 31 →
        (Insert (InitList 0) "a" "x" 60 0).list.Size = (xs.length : Int) ∧
        0 ≤ (Insert (InitList 0) "a" "x" 60 0).list.Size) :=
  C1_chain_size_invariant (Valid.insert (InitList 0) "a" "x" 60 0 (Valid.init 0))

/-- C1 as stated is false: after `2^31` inserts (a sequence of operations
allowed by the claim) the int32 size counter wraps around to `-2^31`, so
`size` is negative and no longer counts the reachable real elements. -/
theorem C1_counterexample :
    Valid (runInserts (InitList 0) repOps) ∧
    (runInserts (InitList 0) repOps).Size < 0 := by
  constructor
  · exact valid_runInserts repOps (Valid.init 0)
  · rw [runInserts_init_size]
    have h1 : repOps.length = 2 ^ 31 := List.length_replicate _ _
    have hlen : ((repOps.length : Nat) : Int) = 2 ^ 31 := by
      rw [h1]
      norm_num
    rw [hlen, wrap32_two_pow_31]
    norm_num

/-- C2 (amended): for every batch of fewer than `2^31` `Insert` calls with
distinct keys on a fresh list, `Size` equals the number of inserts and the
head-to-tail walk yields the inserted keys most-recent-first. -/
theorem C2_insert_order (L : List (String × String × Int × Int)) (now : Int)
    (_hkeys : (L.map fun e => e.1).Nodup) (hlen : (L.length : Int) < 2 ^ 31) :
    (runInserts (InitList now) L).Size = (L.length : Int) ∧
    ∃ xs : List Nat,
      walkF (nextIdx (runInserts (InitList now) L)) (runInserts (InitList now) L).Tail
          (runInserts (InitList now) L).alloc (runInserts (InitList now) L).Head =
        (runInserts (InitList now) L).Head :: xs ++ [(runInserts (InitList now) L).Tail] ∧
      chainKeysOf (runInserts (InitList now) L) xs = (L.map fun e => e.1).reverse := by
  obtain ⟨xs', h1, h2, h3, h4⟩ :=
    runInserts_master L (InitList now) [] (rep_init now) (sizeInv_init now)
  have hlen' : xs'.length = L.length := by
    rw [h3]
    simp
  constructor
  · rw [h2, hlen']
    exact wrap32_eq_self (by omega) hlen
  · refine ⟨xs', (rep_walks _ xs' h1).1, ?_⟩
    rw [h4]
    simp [chainKeysOf]

theorem C2_insert_order_witness :
    (((([("a", "1", 60, 0), ("b", "2", 60, 0)] : List (String × String × Int × Int)).map
        fun e => e.1).Nodup) ∧
      ((([("a", "1", 60, 0), ("b", "2", 60, 0)] : List (String × String × Int × Int)).length :
        Int) < 2 ^ 31)) ∧
    ((runInserts (InitList 0) [("a", "1", 60, 0), ("b", "2", 60, 0)]).Size =
      (([("a", "1", 60, 0), ("b", "2", 60, 0)] :
        List (String × String × Int × Int)).length : Int) ∧
    ∃ xs : List Nat,
      walkF (nextIdx (runInserts (InitList 0) [("a", "1", 60, 0), ("b", "2", 60, 0)]))
          (runInserts (InitList 0) [("a", "1", 60, 0), ("b", "2", 60, 0)]).Tail
          (runInserts (InitList 0) [("a", "1", 60, 0), ("b", "2", 60, 0)]).alloc
          (runInserts (InitList 0) [("a", "1", 60, 0), ("b", "2", 60, 0)]).Head =
        (runInserts (InitList 0) [("a", "1", 60, 0), ("b", "2", 60, 0)]).Head :: xs ++
          [(runInserts (InitList 0) [("a", "1", 60, 0), ("b", "2", 60, 0)]).Tail] ∧
      chainKeysOf (runInserts (InitList 0) [("a", "1", 60, 0), ("b", "2", 60, 0)]) xs =
        (([("a", "1", 60, 0), ("b", "2", 60, 0)] :
          List (String × String × Int × Int)).map fun e => e.1).reverse) :=
  ⟨⟨by decide, by decide⟩,
    C2_insert_order [("a", "1", 60, 0), ("b", "2", 60, 0)] 0 (by decide) (by decide)⟩

/-- C2 as stated is false: `bigOps` is a batch of `2^31` inserts with pairwise
distinct keys, after which the int32 size counter holds `-2^31`, not the
number of inserts. -/
theorem C2_counterexample :
    (bigOps.map fun e => e.1).Nodup ∧
    (runInserts (InitList 0) bigOps).Size ≠ (bigOps.length : Int) := by
  refine ⟨bigOps_keys_nodup, ?_⟩
  rw [runInserts_init_size]
  have h1 : bigOps.length = 2 ^ 31 := by
    show ((List.range (2 ^ 31)).map _).length = 2 ^ 31
    rw [List.length_map, List.length_range]
  have hlen : ((bigOps.length : Nat) : Int) = 2 ^ 31 := by
    rw [h1]
    norm_num
  rw [hlen, wrap32_two_pow_31]
  norm_num

/-- Interior links of a represented list: a linked element has a `some` `Prev`
(pointing at its chain predecessor) and a `some` `Next`. -/
theorem rep_mem_links (s : LList) (xs₁ xs₂ : List Nat) (e : Nat)
    (h : Rep s (xs₁ ++ e :: xs₂)) :
    prevIdx s e = some ((s.Head :: xs₁).getLast (List.cons_ne_nil _ _)) ∧
    ∃ q, nextIdx s e = some q := by
  obtain ⟨hf, hb, _, _⟩ := h
  have hfc0 : fullChain s (xs₁ ++ e :: xs₂) = (s.Head :: xs₁) ++ e :: (xs₂ ++ [s.Tail]) := by
    simp [fullChain]
  rw [hfc0] at hf hb
  obtain ⟨q, B', hqB⟩ : ∃ q B', xs₂ ++ [s.Tail] = q :: B' := by
    cases xs₂ with
    | nil => exact ⟨s.Tail, [], rfl⟩
    | cons x t => exact ⟨x, t ++ [s.Tail], rfl⟩
  constructor
  · exact (List.chain'_append.mp hb).2.2 _
      (List.getLast?_eq_getLast _ (List.cons_ne_nil _ _)) e (by simp)
  · refine ⟨q, ?_⟩
    have hfEB := (List.chain'_append.mp hf).2.1
    rw [hqB] at hfEB
    exact (List.chain'_cons.mp hfEB).1

/-- Distinctness facts about a linked element extracted from the chain. -/
theorem nodup_mid_facts (s : LList) (xs₁ xs₂ : List Nat) (e : Nat)
    (hnd : (fullChain s (xs₁ ++ e :: xs₂)).Nodup) :
    e ≠ s.Head ∧ e ≠ s.Tail ∧ e ∉ xs₁ ∧ e ∉ xs₂ := by
  have h1 : (s.Head :: ((xs₁ ++ e :: xs₂) ++ [s.Tail])).Nodup := by
    simpa [fullChain] using hnd
  obtain ⟨hHead_notin, h2⟩ := List.nodup_cons.mp h1
  have hTail_notin : s.Tail ∉ xs₁ ++ e :: xs₂ := not_mem_of_nodup_append_singleton h2
  have h3 : (xs₁ ++ e :: xs₂).Nodup := (List.nodup_append.mp h2).1
  obtain ⟨hnd1, hndE, hdisj⟩ := List.nodup_append.mp h3
  refine ⟨?_, ?_, ?_, ?_⟩
  · intro hc
    refine hHead_notin ?_
    rw [← hc]
    exact List.mem_append.mpr (Or.inl (by simp))
  · intro hc
    refine hTail_notin ?_
    rw [← hc]
    simp
  · intro hc
    exact hdisj hc (by simp)
  · exact (List.nodup_cons.mp hndE).1

/-- C3: on every well-formed list holding at least one real element,
`RemoveLast` returns the tail-adjacent element (the least recently inserted
one), relinks the chain to exclude exactly it, and decrements `Size` by one. -/
theorem C3_removeLast_lru (s : LList) (xs : List Nat) (h : WF s xs) (hne : xs ≠ []) :
    (RemoveLast s).node = some (xs.getLast hne) ∧
    (RemoveLast s).err = none ∧
    (RemoveLast s).list.Size = s.Size - 1 ∧
    WF (RemoveLast s).list xs.dropLast := by
  obtain ⟨hrep, hsz, hlt⟩ := h
  have hlen1 : 1 ≤ xs.length := List.length_pos.mpr hne
  have h0 : s.Size ≠ 0 := by
    rw [hsz]
    intro hc
    have : xs.length = 0 := by exact_mod_cast hc
    omega
  have hsplit : xs.dropLast ++ [xs.getLast hne] = xs := List.dropLast_append_getLast hne
  rw [← hsplit] at hrep
  obtain ⟨hrep', hH, hT, hA, hS, hnode, herr, hmem⟩ :=
    removeLast_split s xs.dropLast (xs.getLast hne) hrep h0
  have hSize : (RemoveLast s).list.Size = s.Size - 1 := by
    rw [hS, hsz]
    exact wrap32_eq_self (by omega) (by omega)
  refine ⟨hnode, herr, hSize, hrep', ?_, ?_⟩
  · rw [hSize, hsz, List.length_dropLast]
    omega
  · rw [hSize, hsz]
    omega

theorem C3_removeLast_lru_witness :
    WF (Insert (InitList 0) "a" "v" 60 0).list [2] ∧
    (RemoveLast (Insert (InitList 0) "a" "v" 60 0).list).node = some 2 ∧
    (RemoveLast (Insert (InitList 0) "a" "v" 60 0).list).err = none ∧
    (RemoveLast (Insert (InitList 0) "a" "v" 60 0).list).list.Size =
      (Insert (InitList 0) "a" "v" 60 0).list.Size - 1 ∧
    WF (RemoveLast (Insert (InitList 0) "a" "v" 60 0).list).list [] := by
  have h := C3_removeLast_lru (Insert (InitList 0) "a" "v" 60 0).list [2]
    (by decide) (by decide)
  exact ⟨by decide, h.1, h.2.1, h.2.2.1, h.2.2.2⟩

/-- C4: on every list whose `Size` field is zero, `RemoveLast`, `RemoveNode`
and `GetLastNode` each fail with the empty-list error and leave the state
untouched; and on every list, the only error any of the four operations ever
returns is the empty-list error (`Insert` never errs at all). -/
theorem C4_empty_list_errors (s : LList) (h : s.Size = 0) (e : Nat) (t : LList)
    (k v : String) (ttl now : Int) (e2 : Nat) :
    ((RemoveLast s).list = s ∧ (RemoveLast s).node = none ∧
      (RemoveLast s).err = some "List is empty") ∧
    ((RemoveNode s e).list = s ∧ (RemoveNode s e).node = none ∧
      (RemoveNode s e).err = some "List is empty") ∧
    ((GetLastNode s).list = s ∧ (GetLastNode s).node = none ∧
      (GetLastNode s).err = some "List is empty") ∧
    (Insert t k v ttl now).err = none ∧
    ((RemoveLast t).err = none ∨ (RemoveLast t).err = some "List is empty") ∧
    ((RemoveNode t e2).err = none ∨ (RemoveNode t e2).err = some "List is empty") ∧
    ((GetLastNode t).err = none ∨ (GetLastNode t).err = some "List is empty") := by
  refine ⟨by simp [RemoveLast, h], by simp [RemoveNode, h], by simp [GetLastNode, h],
      by simp [Insert], ?_, ?_, ?_⟩
  · by_cases h0 : t.Size = 0
    · right
      simp [RemoveLast, h0]
    · left
      simp [RemoveLast, h0]
  · by_cases h0 : t.Size = 0
    · right
      simp [RemoveNode, h0]
    · by_cases h1 : t.Size = 1
      · left
        exact (removeNode_one e2 h1).2.2
      · left
        simp [RemoveNode, h0, h1]
  · by_cases h0 : t.Size = 0
    · right
      simp [GetLastNode, h0]
    · left
      simp [GetLastNode, h0]

theorem C4_empty_list_errors_witness :
    ((RemoveLast (InitList 0)).list = InitList 0 ∧ (RemoveLast (InitList 0)).node = none ∧
      (RemoveLast (InitList 0)).err = some "List is empty") ∧
    ((RemoveNode (InitList 0) 5).list = InitList 0 ∧ (RemoveNode (InitList 0) 5).node = none ∧
      (RemoveNode (InitList 0) 5).err = some "List is empty") ∧
    ((GetLastNode (InitList 0)).list = InitList 0 ∧ (GetLastNode (InitList 0)).node = none ∧
      (GetLastNode (InitList 0)).err = some "List is empty") ∧
    (Insert (InitList 1) "a" "v" 60 0).err = none ∧
    ((RemoveLast (InitList 1)).err = none ∨
      (RemoveLast (InitList 1)).err = some "List is empty") ∧
    ((RemoveNode (InitList 1) 7).err = none ∨
      (RemoveNode (InitList 1) 7).err = some "List is empty") ∧
    ((GetLastNode (InitList 1)).err = none ∨
      (GetLastNode (InitList 1)).err = some "List is empty") :=
  C4_empty_list_errors (InitList 0) rfl 5 (InitList 1) "a" "v" 60 0 7

/-- A concrete two-element list: `InitList` then `Insert "a"` then
`Insert "b"` (head sentinel 0, tail sentinel 1, node 2 = "a", node 3 = "b"). -/
def twoList : LList :=
  (Insert (Insert (InitList 0) "a" "1" 60 0).list "b" "2" 60 0).list

/-- C5: removing a currently-linked element `e` from a well-formed list
returns `e`, decrements `Size` by one, relinks `e`'s former neighbours to
point directly at each other, leaves the chain without `e` (so a walk never
visits it), keeps `e`'s own record untouched, and on a one-element list
coincides with the `RemoveLast` path. -/
theorem C5_removeNode_unlinks (s : LList) (xs : List Nat) (e : Nat)
    (h : WF s xs) (he : e ∈ xs) :
    (RemoveNode s e).node = some e ∧
    (RemoveNode s e).err = none ∧
    (RemoveNode s e).list.Size = s.Size - 1 ∧
    (∃ xs₁ xs₂, xs = xs₁ ++ e :: xs₂ ∧
      WF (RemoveNode s e).list (xs₁ ++ xs₂) ∧
      e ∉ fullChain (RemoveNode s e).list (xs₁ ++ xs₂)) ∧
    (∀ p, prevIdx s e = some p → nextIdx (RemoveNode s e).list p = nextIdx s e) ∧
    (∀ q, nextIdx s e = some q → prevIdx (RemoveNode s e).list q = prevIdx s e) ∧
    (xs.length = 1 →
      (RemoveNode s e).list = (RemoveLast s).list ∧
      (RemoveNode s e).node = (RemoveLast s).node) := by
  obtain ⟨hrep, hsz, hlt⟩ := h
  have hlen1 : 1 ≤ xs.length := List.length_pos.mpr (List.ne_nil_of_mem he)
  have h0 : s.Size ≠ 0 := by
    rw [hsz]
    intro hc
    have : xs.length = 0 := by exact_mod_cast hc
    omega
  by_cases hdeg : xs.length = 1
  · -- one real element: the RemoveLast path
    have h1 : s.Size = 1 := by
      rw [hsz, hdeg]
      norm_num
    obtain ⟨hL, hN, hE⟩ := removeNode_one e h1
    obtain ⟨a, ha⟩ := List.length_eq_one.mp hdeg
    subst ha
    simp at he
    subst he
    have hrep' : Rep s ([] ++ [e]) := by simpa using hrep
    obtain ⟨hrepL, hHL, hTL, hAL, hSL, hnodeL, herrL, hmemL⟩ :=
      removeLast_split s [] e hrep' h0
    obtain ⟨htp, hen, hep0⟩ := rep_last_links s [] e hrep'
    have hep : prevIdx s e = some s.Head := hep0
    obtain ⟨heH, heT, _, _⟩ := nodup_mid_facts s [] [] e (by simpa using hrep.2.2.1)
    have hnewf : List.Chain' (nextLink (RemoveLast s).list)
        ((RemoveLast s).list.Head :: [(RemoveLast s).list.Tail]) := by
      simpa [fullChain] using hrepL.1
    have hnewb : List.Chain' (prevLink (RemoveLast s).list)
        ((RemoveLast s).list.Head :: [(RemoveLast s).list.Tail]) := by
      simpa [fullChain] using hrepL.2.1
    have hnewHT : nextIdx (RemoveLast s).list s.Head = some s.Tail := by
      have := (List.chain'_cons.mp hnewf).1
      rw [hHL, hTL] at this
      exact this
    have hnewTH : prevIdx (RemoveLast s).list s.Tail = some s.Head := by
      have := (List.chain'_cons.mp hnewb).1
      rw [hHL, hTL] at this
      exact this
    refine ⟨?_, hE, ?_, ⟨[], [], by simp, ⟨?_, ?_, ?_⟩, ?_⟩, ?_, ?_, fun _ => ⟨hL, hN⟩⟩
    · rw [hN]
      exact hnodeL
    · rw [hL, hSL, h1]
      rw [wrap32_eq_self (by norm_num) (by norm_num)]
    · rw [hL]
      simpa using hrepL
    · rw [hL, hSL, h1]
      rw [wrap32_eq_self (by norm_num) (by norm_num)]
      simp
    · rw [hL, hSL, h1]
      rw [wrap32_eq_self (by norm_num) (by norm_num)]
      norm_num
    · rw [hL]
      simp [fullChain, hHL, hTL, heH, heT]
    · intro p hp
      rw [hep] at hp
      have hpp : p = s.Head := (Option.some.inj hp).symm
      subst hpp
      rw [hL, hen, hnewHT]
    · intro q hq
      rw [hen] at hq
      have hqq : q = s.Tail := (Option.some.inj hq).symm
      subst hqq
      rw [hL, hep, hnewTH]
  · -- at least two real elements: the relink path
    have h1 : s.Size ≠ 1 := by
      rw [hsz]
      intro hc
      have : xs.length = 1 := by exact_mod_cast hc
      exact hdeg this
    obtain ⟨xs₁, xs₂, hsplit⟩ := List.append_of_mem he
    subst hsplit
    obtain ⟨heH, heT, he1, he2⟩ := nodup_mid_facts s xs₁ xs₂ e hrep.2.2.1
    obtain ⟨hrep', hH, hT, hA, hS, hnode, herr, hmemE, hnb1, hnb2⟩ :=
      removeNode_split s xs₁ xs₂ e hrep h0 h1
    have hSize : (RemoveNode s e).list.Size = s.Size - 1 := by
      rw [hS, hsz]
      exact wrap32_eq_self (by omega) (by omega)
    refine ⟨hnode, herr, hSize,
        ⟨xs₁, xs₂, rfl, ⟨hrep', ?_, ?_⟩, ?_⟩, hnb1, hnb2, fun hc => absurd hc hdeg⟩
    · rw [hSize, hsz]
      push_cast [List.length_append, List.length_cons]
      omega
    · rw [hSize]
      omega
    · simp [fullChain, hH, hT, heH, heT, he1, he2]

theorem C5_removeNode_unlinks_witness :
    (RemoveNode twoList 3).node = some 3 ∧
    (RemoveNode twoList 3).err = none ∧
    (RemoveNode twoList 3).list.Size = twoList.Size - 1 ∧
    (∃ xs₁ xs₂, ([3, 2] : List Nat) = xs₁ ++ 3 :: xs₂ ∧
      WF (RemoveNode twoList 3).list (xs₁ ++ xs₂) ∧
      3 ∉ fullChain (RemoveNode twoList 3).list (xs₁ ++ xs₂)) ∧
    (∀ p, prevIdx twoList 3 = some p →
      nextIdx (RemoveNode twoList 3).list p = nextIdx twoList 3) ∧
    (∀ q, nextIdx twoList 3 = some q →
      prevIdx (RemoveNode twoList 3).list q = prevIdx twoList 3) ∧
    (([3, 2] : List Nat).length = 1 →
      (RemoveNode twoList 3).list = (RemoveLast twoList).list ∧
      (RemoveNode twoList 3).node = (RemoveLast twoList).node) :=
  C5_removeNode_unlinks twoList [3, 2] 3 (by decide) (by decide)

/-- C6 (code evaluation at the failing inputs): `Insert` and `RemoveLast` are
single critical sections — lock on entry, shared accesses only, one unlock on
return — but `RemoveNode` on a two-element list releases and reacquires the
lock mid-call, and `GetLastNode` on a non-empty list reads `Tail.Prev` after
its unlock, so neither holds the lock for the full duration claimed. -/
theorem C6_lock_trace (s : LList) (k v : String) (ttl now : Int) :
    wellLocked (Insert s k v ttl now).trace = true ∧
    wellLocked (RemoveLast s).trace = true ∧
    wellLocked (RemoveNode twoList 3).trace = false ∧
    wellLocked (GetLastNode twoList).trace = false := by
  refine ⟨rfl, ?_, by decide, by decide⟩
  unfold RemoveLast
  split <;> rfl

/-- C7: `InitList` builds the two sentinels with `timeToLive = -1` and empty
key/value, links `head.next = tail` and `tail.previous = head`, and starts
with `size = 0`.  (`InitList` returns only the list — it has no error channel,
hence no failure mode.) -/
theorem C7_initList_sentinels (now : Int) :
    ((InitList now).mem (InitList now).Head).TTL = -1 ∧
    ((InitList now).mem (InitList now).Tail).TTL = -1 ∧
    ((InitList now).mem (InitList now).Head).Key = "" ∧
    ((InitList now).mem (InitList now).Head).Value = "" ∧
    ((InitList now).mem (InitList now).Tail).Key = "" ∧
    ((InitList now).mem (InitList now).Tail).Value = "" ∧
    ((InitList now).mem (InitList now).Head).Next = some (InitList now).Tail ∧
    ((InitList now).mem (InitList now).Tail).Prev = some (InitList now).Head ∧
    (InitList now).Size = 0 :=
  ⟨rfl, rfl, rfl, rfl, rfl, rfl, rfl, rfl, rfl⟩

/-- C8: on every well-formed list with at least one real element,
`GetLastNode` returns the tail-adjacent (least-recently-used) element without
error and without changing the list state at all. -/
theorem C8_getLastNode_peek (s : LList) (xs : List Nat) (h : WF s xs) (hne : xs ≠ []) :
    (GetLastNode s).node = some (xs.getLast hne) ∧
    (GetLastNode s).err = none ∧
    (GetLastNode s).list = s := by
  obtain ⟨hrep, hsz, hlt⟩ := h
  have hlen1 : 1 ≤ xs.length := List.length_pos.mpr hne
  have h0 : s.Size ≠ 0 := by
    rw [hsz]
    intro hc
    have : xs.length = 0 := by exact_mod_cast hc
    omega
  have hrep1 : Rep s (xs.dropLast ++ [xs.getLast hne]) := by
    rw [List.dropLast_append_getLast]
    exact hrep
  obtain ⟨htp, _, _⟩ := rep_last_links s xs.dropLast (xs.getLast hne) hrep1
  refine ⟨?_, by simp [GetLastNode, h0], getLastNode_list s⟩
  simp [GetLastNode, h0]
  exact htp

theorem C8_getLastNode_peek_witness :
    (GetLastNode twoList).node = some 2 ∧
    (GetLastNode twoList).err = none ∧
    (GetLastNode twoList).list = twoList := by
  have h := C8_getLastNode_peek twoList [3, 2] (by decide) (by decide)
  exact ⟨h.1, h.2.1, h.2.2⟩

/-- C9: inserting into a well-formed empty list and immediately peeking with
`GetLastNode` yields the very element `Insert` returned (the sole element is
both MRU and LRU), and `Insert` never fails (its error is always `nil`). -/
theorem C9_insert_then_getLast (s : LList) (h : WF s []) (k v : String) (ttl now : Int)
    (t : LList) (k2 v2 : String) (ttl2 now2 : Int) :
    (Insert s k v ttl now).err = none ∧
    (GetLastNode (Insert s k v ttl now).list).node = (Insert s k v ttl now).node ∧
    (Insert t k2 v2 ttl2 now2).err = none := by
  obtain ⟨hrep, hsz, _⟩ := h
  obtain ⟨hrep', hH, hT, hA, hS, hnode, herr, _, _⟩ := insert_master s [] hrep k v ttl now
  have hs0 : s.Size = 0 := by simpa using hsz
  have hS1 : (Insert s k v ttl now).list.Size = 1 := by
    rw [hS, hs0]
    rw [show (0 : Int) + 1 = 1 from by norm_num]
    exact wrap32_eq_self (by norm_num) (by norm_num)
  have h0 : (Insert s k v ttl now).list.Size ≠ 0 := by
    rw [hS1]
    norm_num
  refine ⟨herr, ?_, by simp [Insert]⟩
  have hrepS : Rep (Insert s k v ttl now).list ([] ++ [s.alloc]) := by simpa using hrep'
  obtain ⟨htp, _, _⟩ := rep_last_links _ [] s.alloc hrepS
  rw [hnode]
  simp [GetLastNode, h0]
  exact htp

theorem C9_insert_then_getLast_witness :
    (Insert (InitList 0) "a" "v" 60 0).err = none ∧
    (GetLastNode (Insert (InitList 0) "a" "v" 60 0).list).node =
      (Insert (InitList 0) "a" "v" 60 0).node ∧
    (Insert (InitList 1) "b" "w" 30 2).err = none :=
  C9_insert_then_getLast (InitList 0) (by decide) "a" "v" 60 0 (InitList 1) "b" "w" 30 2

/-- C10: neither `RemoveLast` nor `RemoveNode` clears the removed element's
pointers — its `Prev`/`Next` fields are exactly what they were before the
call, and both still point at the former neighbours (both are `some`; the
tail-adjacent element's `Next` is the tail sentinel). -/
theorem C10_removed_pointers_kept (s : LList) (xs : List Nat) (h : WF s xs) :
    (∀ (hne : xs ≠ []),
      ((RemoveLast s).list.mem (xs.getLast hne)).Prev = prevIdx s (xs.getLast hne) ∧
      ((RemoveLast s).list.mem (xs.getLast hne)).Next = nextIdx s (xs.getLast hne) ∧
      nextIdx s (xs.getLast hne) = some s.Tail ∧
      (prevIdx s (xs.getLast hne)).isSome = true) ∧
    (∀ e, e ∈ xs →
      ((RemoveNode s e).list.mem e).Prev = prevIdx s e ∧
      ((RemoveNode s e).list.mem e).Next = nextIdx s e ∧
      (prevIdx s e).isSome = true ∧ (nextIdx s e).isSome = true) := by
  obtain ⟨hrep, hsz, hlt⟩ := h
  constructor
  · intro hne
    have hlen1 : 1 ≤ xs.length := List.length_pos.mpr hne
    have h0 : s.Size ≠ 0 := by
      rw [hsz]
      intro hc
      have : xs.length = 0 := by exact_mod_cast hc
      omega
    have hrep1 : Rep s (xs.dropLast ++ [xs.getLast hne]) := by
      rw [List.dropLast_append_getLast]
      exact hrep
    obtain ⟨_, _, _, _, _, _, _, hmem⟩ :=
      removeLast_split s xs.dropLast (xs.getLast hne) hrep1 h0
    obtain ⟨htp, hnx, hpv⟩ := rep_last_links s xs.dropLast (xs.getLast hne) hrep1
    refine ⟨by rw [hmem]; rfl, by rw [hmem]; rfl, hnx, by rw [hpv]; rfl⟩
  · intro e he
    have hlen1 : 1 ≤ xs.length := List.length_pos.mpr (List.ne_nil_of_mem he)
    have h0 : s.Size ≠ 0 := by
      rw [hsz]
      intro hc
      have : xs.length = 0 := by exact_mod_cast hc
      omega
    obtain ⟨xs₁, xs₂, hsplit⟩ := List.append_of_mem he
    subst hsplit
    obtain ⟨hep, ⟨q0, hen⟩⟩ := rep_mem_links s xs₁ xs₂ e hrep
    by_cases hdeg : (xs₁ ++ e :: xs₂).length = 1
    · have h1 : s.Size = 1 := by
        rw [hsz, hdeg]
        norm_num
      obtain ⟨hL, hN, hE⟩ := removeNode_one e h1
      have hx1 : xs₁ = [] := by
        refine List.length_eq_zero.mp ?_
        simp at hdeg
        omega
      have hx2 : xs₂ = [] := by
        refine List.length_eq_zero.mp ?_
        simp at hdeg
        omega
      subst hx1
      subst hx2
      have hrep' : Rep s ([] ++ [e]) := hrep
      obtain ⟨_, _, _, _, _, _, _, hmem⟩ := removeLast_split s [] e hrep' h0
      refine ⟨?_, ?_, by rw [hep]; rfl, by rw [hen]; rfl⟩
      · rw [hL, hmem]
        rfl
      · rw [hL, hmem]
        rfl
    · have h1 : s.Size ≠ 1 := by
        rw [hsz]
        intro hc
        refine hdeg ?_
        exact_mod_cast hc
      obtain ⟨_, _, _, _, _, _, _, hmemE, _, _⟩ :=
        removeNode_split s xs₁ xs₂ e hrep h0 h1
      refine ⟨by rw [hmemE]; rfl, by rw [hmemE]; rfl, by rw [hep]; rfl, by rw [hen]; rfl⟩

theorem C10_removed_pointers_kept_witness :
    (((RemoveLast twoList).list.mem 2).Prev = prevIdx twoList 2 ∧
      ((RemoveLast twoList).list.mem 2).Next = nextIdx twoList 2 ∧
      nextIdx twoList 2 = some twoList.Tail ∧
      (prevIdx twoList 2).isSome = true) ∧
    (((RemoveNode twoList 3).list.mem 3).Prev = prevIdx twoList 3 ∧
      ((RemoveNode twoList 3).list.mem 3).Next = nextIdx twoList 3 ∧
      (prevIdx twoList 3).isSome = true ∧ (nextIdx twoList 3).isSome = true) := by
  have h := C10_removed_pointers_kept twoList [3, 2] (by decide)
  exact ⟨h.1 (by decide), h.2 3 (by decide)⟩

end lru
